import Mathlib

/-
  Shallow embedding of the storage layer of this repository:
  the capacity-bounded ordered key-value store InMem (src/storage/in_mem.go,
  package storage) and the multiraft storage pieces (MemoryStorage and the
  writeTask pipeline) that share that source file.

  Go byte slices are modelled as lists of naturals, Go int/int64 as Int
  (overflow cannot occur in any behaviour the claims touch), a Go error
  result as Except String Unit (error messages are kept as fixed strings:
  the numeric formatting of the originals carries no semantic content),
  and the nil-able pointers in []*LogEntry as Option LogEntry.  The llrb
  tree owned by InMem is an external dependency of the repository; it is
  modelled by its contract: a strictly key-sorted list with ordered
  insert/get/delete/range-iteration.
-/

namespace Spec2Proof

/-- Key is an opaque byte sequence (Go: type Key []byte). -/
abbrev Key := List Nat

/-- Value holds a byte payload (Go: the Bytes field of storage.Value). -/
structure Value where
  Bytes : List Nat
deriving DecidableEq

/-- KeyValue pairs a Key with a Value (Go: storage.KeyValue). -/
structure KeyValue where
  Key : Key
  Value : Value
deriving DecidableEq

/-- Lexicographic byte comparison, the semantics of Go bytes.Compare:
a strict prefix is smaller, otherwise the first differing byte decides. -/
def bytesCompare : List Nat → List Nat → Ordering
  | [], [] => Ordering.eq
  | [], _ :: _ => Ordering.lt
  | _ :: _, [] => Ordering.gt
  | a :: as, b :: bs =>
    if a < b then Ordering.lt
    else if b < a then Ordering.gt
    else bytesCompare as bs

/-- Boolean strict order on keys derived from bytesCompare. -/
def keyLt (a b : Key) : Bool :=
  match bytesCompare a b with
  | Ordering.lt => true
  | _ => false

/-- Boolean non-strict order on keys derived from bytesCompare. -/
def keyLe (a b : Key) : Bool :=
  match bytesCompare a b with
  | Ordering.gt => false
  | _ => true

/-- Lookup in the llrb tree model (llrb.Tree.Get): the stored element whose
key compares equal, if any. -/
def treeGet (k : Key) : List KeyValue → Option KeyValue
  | [] => none
  | kv :: rest =>
    if bytesCompare k kv.Key = Ordering.eq then some kv else treeGet k rest

/-- Ordered insert-or-replace in the llrb tree model (llrb.Tree.Insert). -/
def treeInsert (kv : KeyValue) : List KeyValue → List KeyValue
  | [] => [kv]
  | x :: xs =>
    match bytesCompare kv.Key x.Key with
    | Ordering.lt => kv :: x :: xs
    | Ordering.eq => kv :: xs
    | Ordering.gt => x :: treeInsert kv xs

/-- Removal in the llrb tree model (llrb.Tree.Delete): drops the element
whose key compares equal, if any. -/
def treeDelete (k : Key) : List KeyValue → List KeyValue
  | [] => []
  | kv :: rest =>
    if bytesCompare k kv.Key = Ordering.eq then rest else kv :: treeDelete k rest

/-- Range iteration of the llrb tree model (llrb.Tree.DoRange): the elements
with start ≤ key < end_, visited in ascending key order. -/
def treeDoRange (start end_ : Key) (l : List KeyValue) : List KeyValue :=
  (l.dropWhile (fun kv => keyLt kv.Key start)).takeWhile (fun kv => keyLt kv.Key end_)

/-- SizeInfo carries the two machine-dependent unsafe.Sizeof constants of
the source (llrbNodeSize and keyValueSize); theorems quantify over them. -/
structure SizeInfo where
  llrbNodeSize : Int
  keyValueSize : Int
deriving DecidableEq

/-- computeSize returns the approximate size in bytes that the keyVal
object takes while stored in the underlying LLRB. -/
def computeSize (si : SizeInfo) (kv : KeyValue) : Int :=
  (kv.Key.length : Int) + (kv.Value.Bytes.length : Int) + si.llrbNodeSize + si.keyValueSize

/-- StoreCapacity is the derived capacity report {Capacity, Available}. -/
structure StoreCapacity where
  Capacity : Int
  Available : Int
deriving DecidableEq

/-- InMem is the simple in-memory key-value store (the attrs field and the
mutex are elided: the former is inert metadata, the latter pure locking). -/
structure InMem where
  maxBytes : Int
  usedBytes : Int
  data : List KeyValue
deriving DecidableEq

/-- NewInMem allocates and returns a new InMem object. -/
def NewInMem (maxBytes : Int) : InMem :=
  { maxBytes := maxBytes, usedBytes := 0, data := [] }

/-- putLocked sets the given key to the value provided, rejecting the write
when the marginal size would push usedBytes past maxBytes. -/
def putLocked (si : SizeInfo) (s : InMem) (key : Key) (value : Value) :
    InMem × Except String Unit :=
  let kv : KeyValue := { Key := key, Value := value }
  let size := computeSize si kv
  if size + s.usedBytes > s.maxBytes then
    (s, Except.error "in mem store at capacity")
  else
    ({ s with usedBytes := s.usedBytes + size, data := treeInsert kv s.data },
      Except.ok ())

/-- put sets the given key to the value provided (the lock wrapper of
putLocked). -/
def put (si : SizeInfo) (s : InMem) (key : Key) (value : Value) :
    InMem × Except String Unit :=
  putLocked si s key value

/-- get returns the value for the given key, the zero Value otherwise;
the error component is always nil. -/
def get (s : InMem) (key : Key) : Value × Option String :=
  match treeGet key s.data with
  | none => ({ Bytes := [] }, none)
  | some kv => (kv.Value, none)

/-- scanLoop is the DoRange callback loop of scan: appends visited entries
until max (when non-zero) entries have been collected. -/
def scanLoop (max : Int) : List KeyValue → List KeyValue → List KeyValue
  | scanned, [] => scanned
  | scanned, kv :: rest =>
    if max ≠ 0 ∧ (scanned.length : Int) ≥ max then scanned
    else scanLoop max (scanned ++ [kv]) rest

/-- scan returns up to max key/value objects starting from start (inclusive)
and ending at end_ (non-inclusive). -/
def scan (s : InMem) (start end_ : Key) (max : Int) :
    List KeyValue × Option String :=
  (scanLoop max [] (treeDoRange start end_ s.data), none)

/-- delLocked removes the item with the given key, decrementing usedBytes
by the stored entry's recomputed size when the key is present. -/
def delLocked (si : SizeInfo) (s : InMem) (key : Key) : InMem × Except String Unit :=
  let s1 :=
    match treeGet key s.data with
    | some kv => { s with usedBytes := s.usedBytes - computeSize si kv }
    | none => s
  ({ s1 with data := treeDelete key s1.data }, Except.ok ())

/-- del removes the item from the db with the given key (the lock wrapper
of delLocked). -/
def del (si : SizeInfo) (s : InMem) (key : Key) : InMem × Except String Unit :=
  delLocked si s key

/-- putList is the puts loop of writeBatch: apply in order, abort at the
first failing putLocked. -/
def putList (si : SizeInfo) (s : InMem) : List KeyValue → InMem × Except String Unit
  | [] => (s, Except.ok ())
  | kv :: rest =>
    match putLocked si s kv.Key kv.Value with
    | (s1, Except.error e) => (s1, Except.error e)
    | (s1, Except.ok _) => putList si s1 rest

/-- delList is the dels loop of writeBatch: apply in order, abort at the
first failing delLocked (which in fact never fails). -/
def delList (si : SizeInfo) (s : InMem) : List Key → InMem × Except String Unit
  | [] => (s, Except.ok ())
  | k :: rest =>
    match delLocked si s k with
    | (s1, Except.error e) => (s1, Except.error e)
    | (s1, Except.ok _) => delList si s1 rest

/-- writeBatch applies the specified writes and then the deletions under one
critical section, stopping at the first error. -/
def writeBatch (si : SizeInfo) (s : InMem) (puts : List KeyValue) (dels : List Key) :
    InMem × Except String Unit :=
  match putList si s puts with
  | (s1, Except.error e) => (s1, Except.error e)
  | (s1, Except.ok _) => delList si s1 dels

/-- capacity formulates available space from maxBytes and usedBytes. -/
def capacity (s : InMem) : StoreCapacity × Option String :=
  ({ Capacity := s.maxBytes, Available := s.maxBytes - s.usedBytes }, none)

/-- GroupID identifies a consensus group (Go: multiraft.GroupID). -/
abbrev GroupID := Nat

/-- NodeID identifies a cluster member (Go: multiraft.NodeID); its Go zero
value is 0. -/
abbrev NodeID := Nat

/-- LogEntryType is the type tag of a LogEntry. -/
inductive LogEntryType where
  | LogEntryCommand
deriving DecidableEq

/-- LogEntry represents a persistent log entry {Term, Index, Type, Payload}
(the Type field is spelled Typ because Type is a Lean keyword). -/
structure LogEntry where
  Term : Int
  Index : Int
  Typ : LogEntryType
  Payload : List Nat
deriving DecidableEq

/-- GroupElectionState records {CurrentTerm, VotedFor} for a group. -/
structure GroupElectionState where
  CurrentTerm : Int
  VotedFor : NodeID
deriving DecidableEq

/-- memoryGroup is the per-group state of MemoryStorage: election state and
the log slice, whose elements are nil-able pointers (the 1-based-indexing
dummy at position 0 is nil, hence Option). -/
structure memoryGroup where
  electionState : GroupElectionState
  entries : List (Option LogEntry)
deriving DecidableEq

/-- MemoryStorage is the in-memory Storage implementation for testing; its
Go map from GroupID to group pointers is modelled as an association list. -/
structure MemoryStorage where
  groups : List (GroupID × memoryGroup)
deriving DecidableEq

/-- NewMemoryStorage creates a MemoryStorage with an empty group map. -/
def NewMemoryStorage : MemoryStorage :=
  { groups := [] }

/-- lookupGroup is map access on the association-list model of the groups
map. -/
def lookupGroup : List (GroupID × memoryGroup) → GroupID → Option memoryGroup
  | [], _ => none
  | (g, mg) :: rest, gid => if g = gid then some mg else lookupGroup rest gid

/-- insertGroup is map assignment on the association-list model of the
groups map: replace the binding if present, otherwise add it. -/
def insertGroup : List (GroupID × memoryGroup) → GroupID → memoryGroup →
    List (GroupID × memoryGroup)
  | [], gid, mg => [(gid, mg)]
  | (g, old) :: rest, gid, mg =>
    if g = gid then (gid, mg) :: rest else (g, old) :: insertGroup rest gid mg

/-- getGroup returns the group for groupID, creating it if necessary with a
zero election state and a log holding only the nil dummy entry (the raft
paper uses 1-based indexing); the returned storage reflects the creation. -/
def getGroup (m : MemoryStorage) (gid : GroupID) : memoryGroup × MemoryStorage :=
  match lookupGroup m.groups gid with
  | some g => (g, m)
  | none =>
    let g : memoryGroup :=
      { electionState := { CurrentTerm := 0, VotedFor := 0 }, entries := [none] }
    (g, { groups := insertGroup m.groups gid g })

/-- groupLog reads the stored log slice of a group, empty when the group
does not exist yet. -/
def groupLog (m : MemoryStorage) (gid : GroupID) : List (Option LogEntry) :=
  match lookupGroup m.groups gid with
  | some g => g.entries
  | none => []

/-- SetGroupElectionState unconditionally overwrites the election state of
the (possibly just created) group and always succeeds. -/
def SetGroupElectionState (m : MemoryStorage) (gid : GroupID)
    (electionState : GroupElectionState) : MemoryStorage × Except String Unit :=
  let (g, m1) := getGroup m gid
  ({ groups := insertGroup m1.groups gid { g with electionState := electionState } },
    Except.ok ())

/-- findMismatch is the index-check loop of AppendLogEntries: for the entry
at position i the expected index is the current log length plus i; the
first entry whose Index differs yields the mismatch. -/
def findMismatch (base : Nat) : Nat → List LogEntry → Option (Int × Int)
  | _, [] => none
  | i, e :: rest =>
    if ((base + i : Nat) : Int) ≠ e.Index then some (((base + i : Nat) : Int), e.Index)
    else findMismatch base (i + 1) rest

/-- AppendLogEntries adds entries to the log of the (possibly just created)
group: if any incoming entry's index differs from the expected next index
the whole call fails with the sequencing error and nothing is appended,
otherwise every entry is appended. -/
def AppendLogEntries (m : MemoryStorage) (gid : GroupID) (entries : List LogEntry) :
    MemoryStorage × Except String Unit :=
  let (g, m1) := getGroup m gid
  match findMismatch g.entries.length 0 entries with
  | some _ => (m1, Except.error "log index mismatch")
  | none =>
    ({ groups := insertGroup m1.groups gid { g with entries := g.entries ++ entries.map some } },
      Except.ok ())

/-- groupWriteRequest represents a set of changes to make to a group. -/
structure groupWriteRequest where
  electionState : Option GroupElectionState
  entries : List LogEntry
deriving DecidableEq

/-- groupWriteResponse represents the final state of a persistent group;
electionState may be none and lastIndex and lastTerm may be -1 if the
respective state was not changed. -/
structure groupWriteResponse where
  electionState : Option GroupElectionState
  lastIndex : Int
  lastTerm : Int
  entries : List LogEntry
deriving DecidableEq

/-- appendPhase is the entries half of the per-group body of
writeTask.start: when the request carries entries, append them and on
success record the final entry's index and term in the response; on failure
leave the response as it was. -/
def appendPhase (m : MemoryStorage) (gid : GroupID) (req : groupWriteRequest)
    (resp : groupWriteResponse) : MemoryStorage × groupWriteResponse :=
  match req.entries.getLast? with
  | none => (m, resp)
  | some last =>
    match AppendLogEntries m gid req.entries with
    | (m1, Except.error _) => (m1, resp)
    | (m1, Except.ok _) =>
      (m1, { resp with lastIndex := last.Index, lastTerm := last.Term })

/-- processGroupWrite is the per-group body of the writeTask.start loop:
start from the sentinel response {nil, -1, -1, req.entries}; persist the
election state when requested, skipping the rest of the group on failure;
then run the append phase. -/
def processGroupWrite (m : MemoryStorage) (gid : GroupID) (req : groupWriteRequest) :
    MemoryStorage × groupWriteResponse :=
  let resp0 : groupWriteResponse :=
    { electionState := none, lastIndex := -1, lastTerm := -1, entries := req.entries }
  match req.electionState with
  | some es =>
    match SetGroupElectionState m gid es with
    | (m1, Except.error _) => (m1, resp0)
    | (m1, Except.ok _) => appendPhase m1 gid req { resp0 with electionState := some es }
  | none => appendPhase m gid req resp0

/-- processRequest is one iteration of the writeTask.start loop over a whole
writeRequest: process each group in turn and collect exactly one response
element per group of the request. -/
def processRequest (m : MemoryStorage) :
    List (GroupID × groupWriteRequest) → MemoryStorage × List (GroupID × groupWriteResponse)
  | [] => (m, [])
  | (gid, req) :: rest =>
    let (m1, resp) := processGroupWrite m gid req
    let (m2, resps) := processRequest m1 rest
    (m2, (gid, resp) :: resps)

/-- sortedKV is the llrb tree invariant on the list model: keys strictly
increase along the list. -/
def sortedKV (l : List KeyValue) : Prop :=
  List.Pairwise (fun a b => keyLt a.Key b.Key = true) l

/- ===== Order theory of bytesCompare ===== -/

theorem bytesCompare_eq_iff : ∀ a b : List Nat, bytesCompare a b = Ordering.eq ↔ a = b := by
  intro a
  induction a with
  | nil => intro b; cases b <;> simp [bytesCompare]
  | cons x as ih =>
    intro b
    cases b with
    | nil => simp [bytesCompare]
    | cons y bs =>
      simp only [bytesCompare]
      by_cases h1 : x < y
      · simp only [if_pos h1]
        constructor
        · intro h; exact absurd h (by decide)
        · intro h
          rw [List.cons.injEq] at h
          omega
      · by_cases h2 : y < x
        · simp only [if_neg h1, if_pos h2]
          constructor
          · intro h; exact absurd h (by decide)
          · intro h
            rw [List.cons.injEq] at h
            omega
        · simp only [if_neg h1, if_neg h2, ih bs, List.cons.injEq]
          constructor
          · intro h; exact ⟨by omega, h⟩
          · intro h; exact h.2

theorem bytesCompare_self (a : List Nat) : bytesCompare a a = Ordering.eq :=
  (bytesCompare_eq_iff a a).mpr rfl

theorem bytesCompare_swap : ∀ a b : List Nat, bytesCompare b a = (bytesCompare a b).swap := by
  intro a
  induction a with
  | nil => intro b; cases b <;> simp [bytesCompare, Ordering.swap]
  | cons x as ih =>
    intro b
    cases b with
    | nil => simp [bytesCompare, Ordering.swap]
    | cons y bs =>
      simp only [bytesCompare]
      by_cases h1 : x < y
      · have h2 : ¬ y < x := by omega
        simp [h1, h2, Ordering.swap]
      · by_cases h2 : y < x
        · simp [h1, h2, Ordering.swap]
        · simp [h1, h2, ih bs]

theorem bytesCompare_lt_trans :
    ∀ a b c : List Nat, bytesCompare a b = Ordering.lt →
      bytesCompare b c = Ordering.lt → bytesCompare a c = Ordering.lt := by
  intro a
  induction a with
  | nil =>
    intro b c hab hbc
    cases b with
    | nil => simp [bytesCompare] at hab
    | cons y bs =>
      cases c with
      | nil => simp [bytesCompare] at hbc
      | cons z cs => simp [bytesCompare]
  | cons x as ih =>
    intro b c hab hbc
    cases b with
    | nil => simp [bytesCompare] at hab
    | cons y bs =>
      cases c with
      | nil => simp [bytesCompare] at hbc
      | cons z cs =>
        simp only [bytesCompare] at hab hbc ⊢
        by_cases hxy : x < y
        · by_cases hyz : y < z
          · have : x < z := by omega
            simp [this]
          · by_cases hzy : z < y
            · simp [hyz, hzy] at hbc
            · have : x < z := by omega
              simp [this]
        · by_cases hyx : y < x
          · simp [hxy, hyx] at hab
          · by_cases hyz : y < z
            · have : x < z := by omega
              simp [this]
            · by_cases hzy : z < y
              · simp [hyz, hzy] at hbc
              · have hxz : ¬ x < z := by omega
                have hzx : ¬ z < x := by omega
                simp only [if_neg hxy, if_neg hyx] at hab
                simp only [if_neg hyz, if_neg hzy] at hbc
                simp [hxz, hzx, ih bs cs hab hbc]

theorem keyLt_iff (a b : Key) : keyLt a b = true ↔ bytesCompare a b = Ordering.lt := by
  unfold keyLt
  cases h : bytesCompare a b <;> simp

theorem keyLe_iff (a b : Key) : keyLe a b = true ↔ bytesCompare a b ≠ Ordering.gt := by
  unfold keyLe
  cases h : bytesCompare a b <;> simp

theorem keyLt_trans {a b c : Key} (h1 : keyLt a b = true) (h2 : keyLt b c = true) :
    keyLt a c = true := by
  rw [keyLt_iff] at h1 h2 ⊢
  exact bytesCompare_lt_trans a b c h1 h2

theorem keyLt_irrefl (a : Key) : keyLt a a = false := by
  unfold keyLt
  rw [bytesCompare_self]

theorem keyLe_of_not_keyLt {a b : Key} (h : keyLt a b = false) : keyLe b a = true := by
  rw [keyLe_iff, bytesCompare_swap]
  unfold keyLt at h
  cases hc : bytesCompare a b <;> simp [hc, Ordering.swap] at h ⊢

theorem not_keyLe_of_keyLt {a b : Key} (h : keyLt a b = true) : keyLe b a = false := by
  rw [keyLt_iff] at h
  unfold keyLe
  rw [bytesCompare_swap, h]
  rfl

theorem keyLt_of_keyLe_of_keyLt {a b c : Key} (h1 : keyLe a b = true)
    (h2 : keyLt b c = true) : keyLt a c = true := by
  rw [keyLe_iff] at h1
  rw [keyLt_iff] at h2 ⊢
  cases hc : bytesCompare a b with
  | lt => exact bytesCompare_lt_trans a b c hc h2
  | eq => rw [(bytesCompare_eq_iff a b).mp hc]; exact h2
  | gt => exact absurd hc h1

theorem keyLt_ne {a b : Key} (h : keyLt a b = true) : a ≠ b := by
  intro hab
  rw [hab, keyLt_irrefl] at h
  exact absurd h (by decide)

theorem keyLe_of_keyLt {a b : Key} (h : keyLt a b = true) : keyLe a b = true := by
  rw [keyLt_iff] at h
  rw [keyLe_iff, h]
  intro hc
  exact absurd hc (by decide)

/- ===== Lemmas about the llrb tree model ===== -/

theorem treeGet_insert_self (kv : KeyValue) :
    ∀ l, treeGet kv.Key (treeInsert kv l) = some kv := by
  intro l
  induction l with
  | nil => simp [treeInsert, treeGet, bytesCompare_self]
  | cons x xs ih =>
    simp only [treeInsert]
    cases hc : bytesCompare kv.Key x.Key with
    | lt => simp [treeGet, bytesCompare_self]
    | eq => simp [treeGet, bytesCompare_self]
    | gt =>
      have hne : bytesCompare kv.Key x.Key ≠ Ordering.eq := by rw [hc]; decide
      simp [treeGet, hne, ih]

theorem treeGet_insert_ne (k : Key) (kv : KeyValue) (h : k ≠ kv.Key) :
    ∀ l, treeGet k (treeInsert kv l) = treeGet k l := by
  have hne : bytesCompare k kv.Key ≠ Ordering.eq := by
    intro hc
    exact h ((bytesCompare_eq_iff _ _).mp hc)
  intro l
  induction l with
  | nil => simp [treeInsert, treeGet, hne]
  | cons x xs ih =>
    simp only [treeInsert]
    cases hc : bytesCompare kv.Key x.Key with
    | lt => simp [treeGet, hne]
    | eq =>
      have hx : kv.Key = x.Key := (bytesCompare_eq_iff _ _).mp hc
      have hkx : bytesCompare k x.Key = bytesCompare k kv.Key := by rw [hx]
      simp [treeGet, hne, hkx]
    | gt => simp [treeGet, ih]

/- ===== Lemmas about scan ===== -/

theorem dropWhile_lt_eq_filter (start : Key) :
    ∀ l, sortedKV l →
      l.dropWhile (fun kv => keyLt kv.Key start) = l.filter (fun kv => keyLe start kv.Key) := by
  intro l
  induction l with
  | nil => intro _; rfl
  | cons x xs ih =>
    intro hs
    rw [sortedKV, List.pairwise_cons] at hs
    by_cases hx : keyLt x.Key start = true
    · have hfx : keyLe start x.Key = false := not_keyLe_of_keyLt hx
      simp only [List.dropWhile_cons, hx, if_true, List.filter_cons, hfx]
      exact ih hs.2
    · have hx' : keyLt x.Key start = false := by
        cases hb : keyLt x.Key start
        · rfl
        · exact absurd hb hx
      have hfx : keyLe start x.Key = true := keyLe_of_not_keyLt hx'
      simp only [List.dropWhile_cons, hx', Bool.false_eq_true, if_false, List.filter_cons, hfx,
        if_true]
      have hall : ∀ y ∈ xs, keyLe start y.Key = true := by
        intro y hy
        exact keyLe_of_keyLt (keyLt_of_keyLe_of_keyLt hfx (hs.1 y hy))
      rw [List.filter_eq_self.mpr hall]

theorem takeWhile_lt_eq_filter (e : Key) :
    ∀ l, sortedKV l →
      l.takeWhile (fun kv => keyLt kv.Key e) = l.filter (fun kv => keyLt kv.Key e) := by
  intro l
  induction l with
  | nil => intro _; rfl
  | cons x xs ih =>
    intro hs
    rw [sortedKV, List.pairwise_cons] at hs
    by_cases hx : keyLt x.Key e = true
    · simp only [List.takeWhile_cons, hx, if_true, List.filter_cons]
      rw [ih hs.2]
    · have hx' : keyLt x.Key e = false := by
        cases hb : keyLt x.Key e
        · rfl
        · exact absurd hb hx
      simp only [List.takeWhile_cons, hx', Bool.false_eq_true, if_false, List.filter_cons, hx']
      have hnone : ∀ y ∈ xs, ¬ (fun kv => keyLt kv.Key e) y = true := by
        intro y hy hlt
        have : keyLt x.Key e = true := keyLt_trans (hs.1 y hy) hlt
        rw [hx'] at this
        exact absurd this (by decide)
      rw [List.filter_eq_nil_iff.mpr hnone]

theorem treeDoRange_eq_filter (start e : Key) (l : List KeyValue) (hs : sortedKV l) :
    treeDoRange start e l = l.filter (fun kv => keyLe start kv.Key && keyLt kv.Key e) := by
  unfold treeDoRange
  rw [dropWhile_lt_eq_filter start l hs]
  have hs' : sortedKV (l.filter (fun kv => keyLe start kv.Key)) :=
    List.Pairwise.sublist (List.filter_sublist l) hs
  rw [takeWhile_lt_eq_filter e _ hs', List.filter_filter]
  exact List.filter_congr (fun a _ => Bool.and_comm _ _)

theorem scanLoop_zero : ∀ l acc, scanLoop 0 acc l = acc ++ l := by
  intro l
  induction l with
  | nil => intro acc; simp [scanLoop]
  | cons kv rest ih =>
    intro acc
    simp [scanLoop, ih]

theorem scanLoop_ne_zero (max : Int) (hm : max ≠ 0) :
    ∀ l acc, scanLoop max acc l =
      if (acc.length : Int) ≥ max then acc
      else acc ++ l.take (max.toNat - acc.length) := by
  intro l
  induction l with
  | nil =>
    intro acc
    by_cases hge : (acc.length : Int) ≥ max
    · simp [scanLoop, hge]
    · simp [scanLoop, hge]
  | cons kv rest ih =>
    intro acc
    by_cases hge : (acc.length : Int) ≥ max
    · simp [scanLoop, hm, hge]
    · have hcond : ¬ (max ≠ 0 ∧ (acc.length : Int) ≥ max) := fun hc => hge hc.2
      rw [show scanLoop max acc (kv :: rest)
            = if max ≠ 0 ∧ (acc.length : Int) ≥ max then acc
              else scanLoop max (acc ++ [kv]) rest from rfl]
      rw [if_neg hcond, ih (acc ++ [kv]), if_neg hge]
      have hlen : ((acc ++ [kv]).length : Int) = (acc.length : Int) + 1 := by
        simp
      by_cases hge2 : ((acc ++ [kv]).length : Int) ≥ max
      · rw [if_pos hge2]
        have h1 : max.toNat - acc.length = 1 := by
          rw [hlen] at hge2
          omega
        rw [h1]
        rfl
      · rw [if_neg hge2]
        have h1 : max.toNat - acc.length = (max.toNat - (acc ++ [kv]).length) + 1 := by
          rw [hlen] at hge2
          simp only [List.length_append, List.length_cons, List.length_nil]
          omega
        rw [h1, List.take_succ_cons, List.append_assoc]
        rfl

/- ===== Lemmas about MemoryStorage ===== -/

theorem lookupGroup_insert_self (gid : GroupID) (mg : memoryGroup) :
    ∀ l, lookupGroup (insertGroup l gid mg) gid = some mg := by
  intro l
  induction l with
  | nil => simp [insertGroup, lookupGroup]
  | cons p rest ih =>
    rcases p with ⟨g, old⟩
    by_cases h : g = gid
    · simp [insertGroup, lookupGroup, h]
    · simp [insertGroup, lookupGroup, h, ih]

theorem groupLog_getGroup (m : MemoryStorage) (gid : GroupID) :
    groupLog (getGroup m gid).2 gid = (getGroup m gid).1.entries := by
  unfold getGroup groupLog
  cases hl : lookupGroup m.groups gid with
  | some g => simp [hl]
  | none => simp [hl, lookupGroup_insert_self]

theorem getGroup_entries_of_lookup_none (m : MemoryStorage) (gid : GroupID)
    (h : lookupGroup m.groups gid = none) : (getGroup m gid).1.entries = [none] := by
  unfold getGroup
  rw [h]

theorem findMismatch_none_iff (base : Nat) :
    ∀ (l : List LogEntry) (i : Nat),
      findMismatch base i l = none ↔
        ∀ j (hj : j < l.length), (l.get ⟨j, hj⟩).Index = ((base + i + j : Nat) : Int) := by
  intro l
  induction l with
  | nil =>
    intro i
    simp [findMismatch]
  | cons e rest ih =>
    intro i
    by_cases h : ((base + i : Nat) : Int) ≠ e.Index
    · simp only [findMismatch, if_pos h]
      constructor
      · intro hc; exact absurd hc (by simp)
      · intro hall
        have h0 := hall 0 (by simp)
        simp at h0
        exact absurd h0.symm h
    · push_neg at h
      simp only [findMismatch, if_neg (by push_neg; exact h :
          ¬ ((base + i : Nat) : Int) ≠ e.Index)]
      rw [ih (i + 1)]
      constructor
      · intro hall j hj
        cases j with
        | zero =>
          simp only [List.get]
          rw [← h]
          norm_num
        | succ j' =>
          have hj' : j' < rest.length := by
            simp at hj
            omega
          have := hall j' hj'
          simp only [List.get] at this ⊢
          rw [this]
          congr 1
          omega
      · intro hall j hj
        have hj1 : j + 1 < (e :: rest).length := by
          simp
          omega
        have := hall (j + 1) hj1
        simp only [List.get] at this ⊢
        rw [this]
        congr 1
        omega

theorem AppendLogEntries_eq (m : MemoryStorage) (gid : GroupID) (entries : List LogEntry) :
    AppendLogEntries m gid entries =
      match findMismatch (getGroup m gid).1.entries.length 0 entries with
      | some _ => ((getGroup m gid).2, Except.error "log index mismatch")
      | none =>
        ({ groups := insertGroup (getGroup m gid).2.groups gid
            { (getGroup m gid).1 with
                entries := (getGroup m gid).1.entries ++ entries.map some } },
          Except.ok ()) := by
  rfl

/-- C1: for every group and batch handed to AppendLogEntries, if any entry's
index differs from the expected next index (current log length plus offset,
i.e. the entries are contiguous and the first one immediately extends the
log tail), the call fails with the sequencing error and the group's log is
completely unchanged; otherwise the call succeeds and all entries of the
batch are appended. -/
theorem AppendLogEntries_contiguous (m : MemoryStorage) (gid : GroupID)
    (entries : List LogEntry) :
    ((∃ i, ∃ hi : i < entries.length,
        (entries.get ⟨i, hi⟩).Index ≠ (((getGroup m gid).1.entries.length + i : Nat) : Int)) →
      (AppendLogEntries m gid entries).2 = Except.error "log index mismatch" ∧
      groupLog (AppendLogEntries m gid entries).1 gid = (getGroup m gid).1.entries)
    ∧ ((∀ i (hi : i < entries.length),
        (entries.get ⟨i, hi⟩).Index = (((getGroup m gid).1.entries.length + i : Nat) : Int)) →
      (AppendLogEntries m gid entries).2 = Except.ok () ∧
      groupLog (AppendLogEntries m gid entries).1 gid
        = (getGroup m gid).1.entries ++ entries.map some) := by
  have hiff := findMismatch_none_iff (getGroup m gid).1.entries.length entries 0
  constructor
  · intro hmis
    cases hfm : findMismatch (getGroup m gid).1.entries.length 0 entries with
    | some p =>
      rw [AppendLogEntries_eq, hfm]
      exact ⟨rfl, groupLog_getGroup m gid⟩
    | none =>
      exfalso
      obtain ⟨i, hi, hne⟩ := hmis
      have := (hiff.mp hfm) i hi
      simp only [Nat.add_zero] at this
      exact hne this
  · intro hall
    have hfm : findMismatch (getGroup m gid).1.entries.length 0 entries = none := by
      rw [hiff]
      intro j hj
      rw [show (getGroup m gid).1.entries.length + 0 + j
            = (getGroup m gid).1.entries.length + j by omega]
      exact hall j hj
    rw [AppendLogEntries_eq, hfm]
    refine ⟨rfl, ?_⟩
    unfold groupLog
    rw [lookupGroup_insert_self]

/-- C1 (witness): on a fresh storage, appending a single entry of index 5 to
group 0 hits the mismatch branch (expected index 1), and appending a single
entry of index 1 to group 1 hits the success branch. -/
theorem AppendLogEntries_contiguous_witness :
    ((AppendLogEntries NewMemoryStorage 0
        [⟨1, 5, LogEntryType.LogEntryCommand, []⟩]).2 = Except.error "log index mismatch" ∧
      groupLog (AppendLogEntries NewMemoryStorage 0
        [⟨1, 5, LogEntryType.LogEntryCommand, []⟩]).1 0
        = (getGroup NewMemoryStorage 0).1.entries)
    ∧ ((AppendLogEntries NewMemoryStorage 1
        [⟨1, 1, LogEntryType.LogEntryCommand, []⟩]).2 = Except.ok () ∧
      groupLog (AppendLogEntries NewMemoryStorage 1
        [⟨1, 1, LogEntryType.LogEntryCommand, []⟩]).1 1
        = (getGroup NewMemoryStorage 1).1.entries
          ++ [⟨1, 1, LogEntryType.LogEntryCommand, []⟩].map some) := by
  constructor
  · exact (AppendLogEntries_contiguous NewMemoryStorage 0
      [⟨1, 5, LogEntryType.LogEntryCommand, []⟩]).1 ⟨0, by decide, by decide⟩
  · refine (AppendLogEntries_contiguous NewMemoryStorage 1
      [⟨1, 1, LogEntryType.LogEntryCommand, []⟩]).2 ?_
    intro i hi
    have h0 : i = 0 := Nat.lt_one_iff.mp (by simpa using hi)
    subst h0
    rfl

/-- C2 (counterexample): appending entries with indices [0, 1, 2] to a
freshly created group does not succeed: the fresh log already holds the
index-0 nil dummy entry, so the expected first index is 1 and the call fails
with the sequencing error, the log staying at slice length 1. -/
theorem append_zero_one_two_to_fresh_group_fails :
    (AppendLogEntries NewMemoryStorage 1
      [⟨1, 0, LogEntryType.LogEntryCommand, []⟩,
       ⟨1, 1, LogEntryType.LogEntryCommand, []⟩,
       ⟨1, 2, LogEntryType.LogEntryCommand, []⟩]).2 = Except.error "log index mismatch"
    ∧ groupLog (AppendLogEntries NewMemoryStorage 1
      [⟨1, 0, LogEntryType.LogEntryCommand, []⟩,
       ⟨1, 1, LogEntryType.LogEntryCommand, []⟩,
       ⟨1, 2, LogEntryType.LogEntryCommand, []⟩]).1 1 = [none] := by
  exact ⟨rfl, rfl⟩

/-- C2 (amended): on a freshly created group, whose log holds only the
index-0 nil dummy, AppendLogEntries with entries having indices [1, 2, 3]
succeeds and the log slice length becomes 4 (dummy plus the three entries);
AppendLogEntries with a single entry of index 5 fails with the sequencing
error and the log stays at slice length 1 (no real entries). -/
theorem append_to_fresh_group_amended :
    ((AppendLogEntries NewMemoryStorage 1
        [⟨1, 1, LogEntryType.LogEntryCommand, []⟩,
         ⟨1, 2, LogEntryType.LogEntryCommand, []⟩,
         ⟨1, 3, LogEntryType.LogEntryCommand, []⟩]).2 = Except.ok ()
      ∧ groupLog (AppendLogEntries NewMemoryStorage 1
        [⟨1, 1, LogEntryType.LogEntryCommand, []⟩,
         ⟨1, 2, LogEntryType.LogEntryCommand, []⟩,
         ⟨1, 3, LogEntryType.LogEntryCommand, []⟩]).1 1
        = [none, some ⟨1, 1, LogEntryType.LogEntryCommand, []⟩,
           some ⟨1, 2, LogEntryType.LogEntryCommand, []⟩,
           some ⟨1, 3, LogEntryType.LogEntryCommand, []⟩])
    ∧ ((AppendLogEntries NewMemoryStorage 1
        [⟨2, 5, LogEntryType.LogEntryCommand, []⟩]).2 = Except.error "log index mismatch"
      ∧ groupLog (AppendLogEntries NewMemoryStorage 1
        [⟨2, 5, LogEntryType.LogEntryCommand, []⟩]).1 1 = [none]) := by
  exact ⟨⟨rfl, rfl⟩, ⟨rfl, rfl⟩⟩

/- ===== Lemmas about the writeTask per-group processing ===== -/

theorem processGroupWrite_es_none (m : MemoryStorage) (gid : GroupID)
    (req : groupWriteRequest) (hes : req.electionState = none) :
    processGroupWrite m gid req
      = appendPhase m gid req
          { electionState := none, lastIndex := -1, lastTerm := -1, entries := req.entries } := by
  unfold processGroupWrite
  rw [hes]

theorem processGroupWrite_es_some (m : MemoryStorage) (gid : GroupID)
    (req : groupWriteRequest) (es : GroupElectionState)
    (hes : req.electionState = some es) :
    processGroupWrite m gid req
      = appendPhase (SetGroupElectionState m gid es).1 gid req
          { electionState := some es, lastIndex := -1, lastTerm := -1,
            entries := req.entries } := by
  unfold processGroupWrite
  rw [hes]
  rfl

theorem AppendLogEntries_nil_ok (m : MemoryStorage) (gid : GroupID) :
    (AppendLogEntries m gid []).2 = Except.ok () := by
  rfl

theorem appendPhase_error (m : MemoryStorage) (gid : GroupID) (req : groupWriteRequest)
    (resp : groupWriteResponse)
    (h : (AppendLogEntries m gid req.entries).2 = Except.error "log index mismatch") :
    appendPhase m gid req resp = ((AppendLogEntries m gid req.entries).1, resp) := by
  unfold appendPhase
  cases hgl : req.entries.getLast? with
  | none =>
    have hnil : req.entries = [] := List.getLast?_eq_none_iff.mp hgl
    rw [hnil, AppendLogEntries_nil_ok] at h
    exact absurd h (by simp)
  | some last =>
    cases hA : AppendLogEntries m gid req.entries with
    | mk m1 r =>
      rw [hA] at h
      cases r with
      | error e => simp
      | ok u => exact absurd h (by simp)

theorem appendPhase_ok (m : MemoryStorage) (gid : GroupID) (req : groupWriteRequest)
    (resp : groupWriteResponse) (last : LogEntry)
    (hgl : req.entries.getLast? = some last)
    (h : (AppendLogEntries m gid req.entries).2 = Except.ok ()) :
    appendPhase m gid req resp
      = ((AppendLogEntries m gid req.entries).1,
          { resp with lastIndex := last.Index, lastTerm := last.Term }) := by
  unfold appendPhase
  rw [hgl]
  cases hA : AppendLogEntries m gid req.entries with
  | mk m1 r =>
    rw [hA] at h
    cases r with
    | error e => exact absurd h (by simp)
    | ok u => simp

theorem appendPhase_nil (m : MemoryStorage) (gid : GroupID) (req : groupWriteRequest)
    (resp : groupWriteResponse) (hnil : req.entries = []) :
    appendPhase m gid req resp = (m, resp) := by
  unfold appendPhase
  rw [hnil]
  rfl

theorem processRequest_map_fst (gs : List (GroupID × groupWriteRequest)) :
    ∀ m : MemoryStorage, (processRequest m gs).2.map Prod.fst = gs.map Prod.fst := by
  induction gs with
  | nil => intro m; rfl
  | cons p rest ih =>
    intro m
    rcases p with ⟨gid, req⟩
    show ((processRequest (processGroupWrite m gid req).1 rest).1,
        (gid, (processGroupWrite m gid req).2)
          :: (processRequest (processGroupWrite m gid req).1 rest).2).2.map Prod.fst
      = (gid, req).1 :: rest.map Prod.fst
    simp [ih]

/-- C3: for a group request with entries and no election-state change, if the
backend append succeeds, the single response of the request maps the group to
a groupWriteResponse with absent electionState, lastIndex and lastTerm equal
to the last entry's Index and Term, and the request's entries echoed; with no
entries or a failed append, lastIndex and lastTerm stay at the sentinel -1. -/
theorem writeTask_response_fields (m : MemoryStorage) (gid : GroupID)
    (req : groupWriteRequest) (hes : req.electionState = none) :
    (∀ last, req.entries.getLast? = some last →
      (AppendLogEntries m gid req.entries).2 = Except.ok () →
      (processGroupWrite m gid req).2
        = { electionState := none, lastIndex := last.Index, lastTerm := last.Term,
            entries := req.entries })
    ∧ ((req.entries = []
        ∨ (AppendLogEntries m gid req.entries).2 = Except.error "log index mismatch") →
      (processGroupWrite m gid req).2
        = { electionState := none, lastIndex := -1, lastTerm := -1,
            entries := req.entries })
    ∧ (processRequest m [(gid, req)]).2 = [(gid, (processGroupWrite m gid req).2)] := by
  refine ⟨?_, ?_, rfl⟩
  · intro last hgl hok
    rw [processGroupWrite_es_none m gid req hes, appendPhase_ok m gid req _ last hgl hok]
  · intro hfail
    rw [processGroupWrite_es_none m gid req hes]
    cases hfail with
    | inl hnil => rw [appendPhase_nil m gid req _ hnil]
    | inr herr => rw [appendPhase_error m gid req _ herr]

/-- C3 (witness): on a fresh storage, a request for group 0 with the single
entry {Term 7, Index 1} and no election state yields the response
{nil, 1, 7, entries}; the same request with Index 9 fails the append and
yields the sentinel response {nil, -1, -1, entries}. -/
theorem writeTask_response_fields_witness :
    ((processGroupWrite NewMemoryStorage 0
        ⟨none, [⟨7, 1, LogEntryType.LogEntryCommand, []⟩]⟩).2
      = { electionState := none, lastIndex := 1, lastTerm := 7,
          entries := [⟨7, 1, LogEntryType.LogEntryCommand, []⟩] })
    ∧ ((processGroupWrite NewMemoryStorage 0
        ⟨none, [⟨7, 9, LogEntryType.LogEntryCommand, []⟩]⟩).2
      = { electionState := none, lastIndex := -1, lastTerm := -1,
          entries := [⟨7, 9, LogEntryType.LogEntryCommand, []⟩] })
    ∧ (processRequest NewMemoryStorage
        [(0, ⟨none, [⟨7, 1, LogEntryType.LogEntryCommand, []⟩]⟩)]).2
      = [(0, (processGroupWrite NewMemoryStorage 0
          ⟨none, [⟨7, 1, LogEntryType.LogEntryCommand, []⟩]⟩).2)] := by
  refine ⟨?_, ?_, ?_⟩
  · exact (writeTask_response_fields NewMemoryStorage 0
      ⟨none, [⟨7, 1, LogEntryType.LogEntryCommand, []⟩]⟩ rfl).1
      ⟨7, 1, LogEntryType.LogEntryCommand, []⟩ rfl rfl
  · exact (writeTask_response_fields NewMemoryStorage 0
      ⟨none, [⟨7, 9, LogEntryType.LogEntryCommand, []⟩]⟩ rfl).2.1 (Or.inr rfl)
  · exact (writeTask_response_fields NewMemoryStorage 0
      ⟨none, [⟨7, 1, LogEntryType.LogEntryCommand, []⟩]⟩ rfl).2.2

/-- C4: the writeTask layer never surfaces a backend failure as an explicit
error value: processing a request yields exactly one response element per
group of the request (in particular the failing groups are still present),
and a group whose append failed is signalled only through the sentinel -1
lastIndex and lastTerm (and, when no election state was requested, an absent
electionState; when one was requested and persisted, it is echoed even
though the append failed). -/
theorem writeTask_swallows_backend_errors :
    (∀ (m : MemoryStorage) (gs : List (GroupID × groupWriteRequest)),
      (processRequest m gs).2.map Prod.fst = gs.map Prod.fst)
    ∧ (∀ (m : MemoryStorage) (gid : GroupID) (req : groupWriteRequest),
        req.electionState = none →
        (AppendLogEntries m gid req.entries).2 = Except.error "log index mismatch" →
        (processGroupWrite m gid req).2
          = { electionState := none, lastIndex := -1, lastTerm := -1,
              entries := req.entries })
    ∧ (∀ (m : MemoryStorage) (gid : GroupID) (req : groupWriteRequest)
          (es : GroupElectionState),
        req.electionState = some es →
        (AppendLogEntries (SetGroupElectionState m gid es).1 gid req.entries).2
          = Except.error "log index mismatch" →
        (processGroupWrite m gid req).2
          = { electionState := some es, lastIndex := -1, lastTerm := -1,
              entries := req.entries }) := by
  refine ⟨fun m gs => processRequest_map_fst gs m, ?_, ?_⟩
  · intro m gid req hes herr
    rw [processGroupWrite_es_none m gid req hes, appendPhase_error m gid req _ herr]
  · intro m gid req es hes herr
    rw [processGroupWrite_es_some m gid req es hes,
      appendPhase_error (SetGroupElectionState m gid es).1 gid req _ herr]

/-- C4 (witness): a two-group request is answered with exactly one response
element per group; a failing append with no election state yields the all
sentinel response; a failing append behind a persisted election state yields
the response carrying that state with the -1 sentinels. -/
theorem writeTask_swallows_backend_errors_witness :
    ((processRequest NewMemoryStorage
        [(0, ⟨none, [⟨7, 9, LogEntryType.LogEntryCommand, []⟩]⟩),
         (1, ⟨none, []⟩)]).2.map Prod.fst = [0, 1])
    ∧ ((processGroupWrite NewMemoryStorage 0
        ⟨none, [⟨7, 9, LogEntryType.LogEntryCommand, []⟩]⟩).2
      = { electionState := none, lastIndex := -1, lastTerm := -1,
          entries := [⟨7, 9, LogEntryType.LogEntryCommand, []⟩] })
    ∧ ((processGroupWrite NewMemoryStorage 0
        ⟨some ⟨3, 2⟩, [⟨7, 9, LogEntryType.LogEntryCommand, []⟩]⟩).2
      = { electionState := some ⟨3, 2⟩, lastIndex := -1, lastTerm := -1,
          entries := [⟨7, 9, LogEntryType.LogEntryCommand, []⟩] }) := by
  refine ⟨?_, ?_, ?_⟩
  · exact writeTask_swallows_backend_errors.1 NewMemoryStorage
      [(0, ⟨none, [⟨7, 9, LogEntryType.LogEntryCommand, []⟩]⟩), (1, ⟨none, []⟩)]
  · exact writeTask_swallows_backend_errors.2.1 NewMemoryStorage 0
      ⟨none, [⟨7, 9, LogEntryType.LogEntryCommand, []⟩]⟩ rfl rfl
  · exact writeTask_swallows_backend_errors.2.2 NewMemoryStorage 0
      ⟨some ⟨3, 2⟩, [⟨7, 9, LogEntryType.LogEntryCommand, []⟩]⟩ ⟨3, 2⟩ rfl rfl

/- ===== Lemmas about putLocked and putList ===== -/

theorem putLocked_over_capacity (si : SizeInfo) (s : InMem) (key : Key) (value : Value)
    (h : computeSize si { Key := key, Value := value } + s.usedBytes > s.maxBytes) :
    putLocked si s key value = (s, Except.error "in mem store at capacity") := by
  unfold putLocked
  rw [if_pos h]

theorem putLocked_within_capacity (si : SizeInfo) (s : InMem) (key : Key) (value : Value)
    (h : ¬ computeSize si { Key := key, Value := value } + s.usedBytes > s.maxBytes) :
    putLocked si s key value
      = ({ s with
            usedBytes := s.usedBytes + computeSize si ⟨key, value⟩,
            data := treeInsert ⟨key, value⟩ s.data }, Except.ok ()) := by
  unfold putLocked
  rw [if_neg h]

/-- C5: putLocked rejects the write with the capacity error and leaves the
store entirely unchanged when the current used bytes plus the marginal cost
of the entry exceed maxBytes; otherwise it succeeds, inserts or replaces the
entry (other keys untouched) and increases usedBytes by exactly the marginal
cost. -/
theorem putLocked_capacity (si : SizeInfo) (s : InMem) (key : Key) (value : Value) :
    (computeSize si { Key := key, Value := value } + s.usedBytes > s.maxBytes →
      (putLocked si s key value).1 = s ∧
      (putLocked si s key value).2 = Except.error "in mem store at capacity")
    ∧ (computeSize si { Key := key, Value := value } + s.usedBytes ≤ s.maxBytes →
      (putLocked si s key value).2 = Except.ok () ∧
      (putLocked si s key value).1.usedBytes
        = s.usedBytes + computeSize si { Key := key, Value := value } ∧
      treeGet key (putLocked si s key value).1.data
        = some { Key := key, Value := value } ∧
      (∀ k, k ≠ key → treeGet k (putLocked si s key value).1.data = treeGet k s.data) ∧
      (putLocked si s key value).1.maxBytes = s.maxBytes) := by
  constructor
  · intro h
    rw [putLocked_over_capacity si s key value h]
    exact ⟨rfl, rfl⟩
  · intro h
    have h' : ¬ computeSize si { Key := key, Value := value } + s.usedBytes > s.maxBytes := by
      omega
    rw [putLocked_within_capacity si s key value h']
    refine ⟨rfl, rfl, ?_, ?_, rfl⟩
    · exact treeGet_insert_self { Key := key, Value := value } s.data
    · intro k hk
      exact treeGet_insert_ne k { Key := key, Value := value } hk s.data

/-- C5 (witness): with unit overheads, putting a one-byte key into a store of
three remaining bytes succeeds with the expected accounting, and putting it
into a full store fails and leaves the store untouched. -/
theorem putLocked_capacity_witness :
    ((putLocked ⟨1, 1⟩ (NewInMem 3) [0] ⟨[]⟩).2 = Except.ok ()
      ∧ (putLocked ⟨1, 1⟩ (NewInMem 3) [0] ⟨[]⟩).1.usedBytes = 3
      ∧ treeGet [0] (putLocked ⟨1, 1⟩ (NewInMem 3) [0] ⟨[]⟩).1.data
        = some { Key := [0], Value := ⟨[]⟩ }
      ∧ treeGet [1] (putLocked ⟨1, 1⟩ (NewInMem 3) [0] ⟨[]⟩).1.data = none)
    ∧ ((putLocked ⟨1, 1⟩ (NewInMem 0) [0] ⟨[]⟩).1 = NewInMem 0
      ∧ (putLocked ⟨1, 1⟩ (NewInMem 0) [0] ⟨[]⟩).2
        = Except.error "in mem store at capacity") := by
  constructor
  · have h := (putLocked_capacity ⟨1, 1⟩ (NewInMem 3) [0] ⟨[]⟩).2 (by decide)
    exact ⟨h.1, h.2.1, h.2.2.1, h.2.2.2.1 [1] (by decide)⟩
  · exact (putLocked_capacity ⟨1, 1⟩ (NewInMem 0) [0] ⟨[]⟩).1 (by decide)

theorem putList_ok_usedBytes (si : SizeInfo) :
    ∀ (kvs : List KeyValue) (s : InMem),
      (putList si s kvs).2 = Except.ok () →
      (putList si s kvs).1.usedBytes
        = s.usedBytes + (kvs.map (fun kv => computeSize si kv)).sum := by
  intro kvs
  induction kvs with
  | nil =>
    intro s _
    simp [putList]
  | cons kv rest ih =>
    intro s h
    by_cases hcap : computeSize si { Key := kv.Key, Value := kv.Value }
        + s.usedBytes > s.maxBytes
    · exfalso
      have hsh := putLocked_over_capacity si s kv.Key kv.Value hcap
      rw [show putList si s (kv :: rest)
            = (s, Except.error "in mem store at capacity") from by
          unfold putList
          rw [hsh]] at h
      exact absurd h (by simp)
    · have hsh := putLocked_within_capacity si s kv.Key kv.Value hcap
      have hstep : putList si s (kv :: rest)
          = putList si
              { s with
                  usedBytes := s.usedBytes + computeSize si ⟨kv.Key, kv.Value⟩,
                  data := treeInsert ⟨kv.Key, kv.Value⟩ s.data } rest := by
        rw [show putList si s (kv :: rest)
              = match putLocked si s kv.Key kv.Value with
                | (s1, Except.error e) => (s1, Except.error e)
                | (s1, Except.ok _) => putList si s1 rest from rfl]
        rw [hsh]
      rw [hstep] at h ⊢
      rw [ih _ h]
      have heta : ({ Key := kv.Key, Value := kv.Value } : KeyValue) = kv := rfl
      rw [heta]
      simp [List.map_cons, List.sum_cons]
      omega

/-- C6: starting from an empty store, any sequence of puts that all succeed
leaves usedBytes equal to the sum of the marginal costs of the put entries;
and a put that would exceed maxBytes leaves the store byte-for-byte,
entry-for-entry unchanged. -/
theorem usedBytes_invariant (si : SizeInfo) :
    (∀ (maxB : Int) (kvs : List KeyValue),
      (putList si (NewInMem maxB) kvs).2 = Except.ok () →
      (putList si (NewInMem maxB) kvs).1.usedBytes
        = (kvs.map (fun kv => computeSize si kv)).sum)
    ∧ (∀ (s : InMem) (key : Key) (value : Value),
      computeSize si { Key := key, Value := value } + s.usedBytes > s.maxBytes →
      (putLocked si s key value).1 = s) := by
  constructor
  · intro maxB kvs h
    have := putList_ok_usedBytes si kvs (NewInMem maxB) h
    rw [this]
    show (0 : Int) + _ = _
    omega
  · intro s key value h
    rw [putLocked_over_capacity si s key value h]

/-- C6 (witness): with unit overheads and budget 100, putting the entries
([0] with empty value, then [1] with a one-byte value) succeeds and leaves
usedBytes at 3 + 4 = 7; with budget 0 the put of [0] is rejected and the
store stays the fresh empty store. -/
theorem usedBytes_invariant_witness :
    ((putList ⟨1, 1⟩ (NewInMem 100)
        [{ Key := [0], Value := ⟨[]⟩ }, { Key := [1], Value := ⟨[2]⟩ }]).1.usedBytes = 7)
    ∧ (putLocked ⟨1, 1⟩ (NewInMem 0) [0] ⟨[]⟩).1 = NewInMem 0 := by
  constructor
  · exact (usedBytes_invariant ⟨1, 1⟩).1 100
      [{ Key := [0], Value := ⟨[]⟩ }, { Key := [1], Value := ⟨[2]⟩ }] rfl
  · exact (usedBytes_invariant ⟨1, 1⟩).2 (NewInMem 0) [0] ⟨[]⟩ (by decide)

/- ===== Lemmas about writeBatch ===== -/

theorem putList_cons_ok (si : SizeInfo) (s s1 : InMem) (kv : KeyValue)
    (rest : List KeyValue)
    (h : putLocked si s kv.Key kv.Value = (s1, Except.ok ())) :
    putList si s (kv :: rest) = putList si s1 rest := by
  rw [show putList si s (kv :: rest)
        = match putLocked si s kv.Key kv.Value with
          | (s1, Except.error e) => (s1, Except.error e)
          | (s1, Except.ok _) => putList si s1 rest from rfl]
  rw [h]

theorem putList_cons_error (si : SizeInfo) (s s1 : InMem) (kv : KeyValue)
    (rest : List KeyValue) (e : String)
    (h : putLocked si s kv.Key kv.Value = (s1, Except.error e)) :
    putList si s (kv :: rest) = (s1, Except.error e) := by
  rw [show putList si s (kv :: rest)
        = match putLocked si s kv.Key kv.Value with
          | (s1, Except.error e) => (s1, Except.error e)
          | (s1, Except.ok _) => putList si s1 rest from rfl]
  rw [h]

theorem putLocked_error_inv (si : SizeInfo) (s : InMem) (key : Key) (value : Value)
    (h : (putLocked si s key value).2 = Except.error "in mem store at capacity") :
    putLocked si s key value = (s, Except.error "in mem store at capacity") := by
  by_cases hc : computeSize si { Key := key, Value := value } + s.usedBytes > s.maxBytes
  · exact putLocked_over_capacity si s key value hc
  · rw [putLocked_within_capacity si s key value hc] at h
    exact absurd h (by simp)

theorem putList_abort (si : SizeInfo) :
    ∀ (good : List KeyValue) (s : InMem) (bad : KeyValue) (rest : List KeyValue),
      (putList si s good).2 = Except.ok () →
      (putLocked si (putList si s good).1 bad.Key bad.Value).2
        = Except.error "in mem store at capacity" →
      putList si s (good ++ bad :: rest)
        = ((putList si s good).1, Except.error "in mem store at capacity") := by
  intro good
  induction good with
  | nil =>
    intro s bad rest _ herr
    exact putList_cons_error si s s bad rest _ (putLocked_error_inv si s bad.Key bad.Value herr)
  | cons kv good' ih =>
    intro s bad rest hok herr
    cases hp : putLocked si s kv.Key kv.Value with
    | mk s1 r =>
      cases r with
      | error e =>
        rw [putList_cons_error si s s1 kv good' e hp] at hok
        exact absurd hok (by simp)
      | ok u =>
        cases u
        have hstep := putList_cons_ok si s s1 kv good' hp
        rw [hstep] at hok herr
        rw [show (kv :: good') ++ bad :: rest = kv :: (good' ++ bad :: rest) from rfl]
        rw [putList_cons_ok si s s1 kv (good' ++ bad :: rest) hp]
        rw [ih s1 bad rest hok herr, hstep]

theorem writeBatch_putList_error (si : SizeInfo) (s s1 : InMem) (puts : List KeyValue)
    (dels : List Key) (e : String) (h : putList si s puts = (s1, Except.error e)) :
    writeBatch si s puts dels = (s1, Except.error e) := by
  rw [show writeBatch si s puts dels
        = match putList si s puts with
          | (s1, Except.error e) => (s1, Except.error e)
          | (s1, Except.ok _) => delList si s1 dels from rfl]
  rw [h]

theorem writeBatch_putList_ok (si : SizeInfo) (s s1 : InMem) (puts : List KeyValue)
    (dels : List Key) (h : putList si s puts = (s1, Except.ok ())) :
    writeBatch si s puts dels = delList si s1 dels := by
  rw [show writeBatch si s puts dels
        = match putList si s puts with
          | (s1, Except.error e) => (s1, Except.error e)
          | (s1, Except.ok _) => delList si s1 dels from rfl]
  rw [h]

theorem delLocked_data (si : SizeInfo) (s : InMem) (key : Key) :
    (delLocked si s key).1.data = treeDelete key s.data := by
  unfold delLocked
  cases htg : treeGet key s.data <;> rfl

theorem delList_single (si : SizeInfo) (s : InMem) (k : Key) :
    delList si s [k] = ((delLocked si s k).1, Except.ok ()) := by
  rw [show delList si s [k]
        = match delLocked si s k with
          | (s1, Except.error e) => (s1, Except.error e)
          | (s1, Except.ok _) => delList si s1 [] from rfl]
  rw [show delLocked si s k = ((delLocked si s k).1, Except.ok ()) from rfl]
  rfl

/-- C7: writeBatch applies all puts in list order and then all dels in list
order; the first failing operation aborts the remaining batch at once while
everything already applied within the call stays applied (no rollback); and
in particular writeBatch with puts [A, B] and dels [A.Key] on an empty store
that can hold both entries leaves exactly B present. -/
theorem writeBatch_order_and_abort (si : SizeInfo) :
    (∀ (s : InMem) (good : List KeyValue) (bad : KeyValue) (rest : List KeyValue)
        (dels : List Key),
      (putList si s good).2 = Except.ok () →
      (putLocked si (putList si s good).1 bad.Key bad.Value).2
        = Except.error "in mem store at capacity" →
      writeBatch si s (good ++ bad :: rest) dels
        = ((putList si s good).1, Except.error "in mem store at capacity"))
    ∧ (∀ (s s1 : InMem) (puts : List KeyValue) (dels : List Key),
      putList si s puts = (s1, Except.ok ()) →
      writeBatch si s puts dels = delList si s1 dels)
    ∧ (∀ (A B : KeyValue) (maxB : Int),
      A.Key ≠ B.Key →
      computeSize si A ≤ maxB →
      computeSize si A + computeSize si B ≤ maxB →
      (writeBatch si (NewInMem maxB) [A, B] [A.Key]).1.data = [B]) := by
  refine ⟨?_, ?_, ?_⟩
  · intro s good bad rest dels hok herr
    exact writeBatch_putList_error si s _ _ dels _ (putList_abort si good s bad rest hok herr)
  · intro s s1 puts dels h
    exact writeBatch_putList_ok si s s1 puts dels h
  · intro A B maxB hne hA hAB
    have h1 : ¬ computeSize si { Key := A.Key, Value := A.Value }
        + (NewInMem maxB).usedBytes > (NewInMem maxB).maxBytes := by
      show ¬ computeSize si A + (0 : Int) > maxB
      omega
    have hput1 : putLocked si (NewInMem maxB) A.Key A.Value
        = ({ maxBytes := maxB, usedBytes := 0 + computeSize si A, data := [A] },
           Except.ok ()) := by
      rw [putLocked_within_capacity si (NewInMem maxB) A.Key A.Value h1]
      rfl
    have h2 : ¬ computeSize si { Key := B.Key, Value := B.Value }
        + (0 + computeSize si A) > maxB := by
      show ¬ computeSize si B + ((0 : Int) + computeSize si A) > maxB
      omega
    have hput2 : putLocked si
        { maxBytes := maxB, usedBytes := 0 + computeSize si A, data := [A] }
        B.Key B.Value
        = ({ maxBytes := maxB,
             usedBytes := (0 + computeSize si A) + computeSize si B,
             data := treeInsert B [A] }, Except.ok ()) := by
      rw [putLocked_within_capacity si
        { maxBytes := maxB, usedBytes := 0 + computeSize si A, data := [A] }
        B.Key B.Value h2]
    have hplist : putList si (NewInMem maxB) [A, B]
        = ({ maxBytes := maxB,
             usedBytes := (0 + computeSize si A) + computeSize si B,
             data := treeInsert B [A] }, Except.ok ()) := by
      rw [putList_cons_ok si (NewInMem maxB) _ A [B] hput1,
        putList_cons_ok si _ _ B ([] : List KeyValue) hput2]
      rfl
    rw [writeBatch_putList_ok si (NewInMem maxB) _ [A, B] [A.Key] hplist,
      delList_single, delLocked_data]
    show treeDelete A.Key (treeInsert B (treeInsert A [])) = [B]
    have hABne : bytesCompare A.Key B.Key ≠ Ordering.eq := by
      intro hc
      exact hne ((bytesCompare_eq_iff _ _).mp hc)
    cases hcmp : bytesCompare B.Key A.Key with
    | lt =>
      have hgt : bytesCompare A.Key B.Key = Ordering.gt := by
        rw [bytesCompare_swap, hcmp]
        rfl
      simp [treeInsert, treeDelete, hcmp, hgt, bytesCompare_self]
    | eq =>
      exact absurd ((bytesCompare_eq_iff _ _).mp hcmp).symm hne
    | gt =>
      simp [treeInsert, treeDelete, hcmp, bytesCompare_self]

/-- C7 (witness): with unit overheads, on a store of budget 3 holding at
most one entry, putting [0] succeeds and the subsequent put of [1] aborts
the batch with the capacity error, keeping the first put applied; on a
budget-100 store the batch puts [0] and [1] and dels [0], leaving only [1]. -/
theorem writeBatch_order_and_abort_witness :
    (writeBatch ⟨1, 1⟩ (NewInMem 3)
        [{ Key := [0], Value := ⟨[]⟩ }, { Key := [1], Value := ⟨[]⟩ }] [[0]]
      = ({ maxBytes := 3, usedBytes := 3, data := [{ Key := [0], Value := ⟨[]⟩ }] },
         Except.error "in mem store at capacity"))
    ∧ (writeBatch ⟨1, 1⟩ (NewInMem 100) [{ Key := [0], Value := ⟨[]⟩ }] [[5]]
      = delList ⟨1, 1⟩ { maxBytes := 100, usedBytes := 3, data := [{ Key := [0], Value := ⟨[]⟩ }] } [[5]])
    ∧ (writeBatch ⟨1, 1⟩ (NewInMem 100)
        [{ Key := [0], Value := ⟨[]⟩ }, { Key := [1], Value := ⟨[]⟩ }] [[0]]).1.data
      = [{ Key := [1], Value := ⟨[]⟩ }] := by
  refine ⟨?_, ?_, ?_⟩
  · exact (writeBatch_order_and_abort ⟨1, 1⟩).1 (NewInMem 3)
      [{ Key := [0], Value := ⟨[]⟩ }] { Key := [1], Value := ⟨[]⟩ } [] [[0]] rfl rfl
  · exact (writeBatch_order_and_abort ⟨1, 1⟩).2.1 (NewInMem 100)
      ({ maxBytes := 100, usedBytes := 3, data := [{ Key := [0], Value := ⟨[]⟩ }] })
      [{ Key := [0], Value := ⟨[]⟩ }] [[5]] rfl
  · exact (writeBatch_order_and_abort ⟨1, 1⟩).2.2
      { Key := [0], Value := ⟨[]⟩ } { Key := [1], Value := ⟨[]⟩ } 100
      (by decide) (by decide) (by decide)

/-- C8: on a store whose tree invariant holds, scan returns exactly the
stored entries with start ≤ key < end_ (byte-wise lexicographic), in
strictly increasing key order; max = 0 returns all of them, and a positive
max truncates to the first max entries of that order. -/
theorem scan_characterization (s : InMem) (start end_ : Key) (max : Int)
    (hs : sortedKV s.data) :
    ((scan s start end_ max).1
      = if max = 0
        then s.data.filter (fun kv => keyLe start kv.Key && keyLt kv.Key end_)
        else (s.data.filter
          (fun kv => keyLe start kv.Key && keyLt kv.Key end_)).take max.toNat)
    ∧ sortedKV (scan s start end_ max).1
    ∧ (0 < max → ((scan s start end_ max).1.length : Int) ≤ max) := by
  have hdr := treeDoRange_eq_filter start end_ s.data hs
  have hkey : (scan s start end_ max).1
      = scanLoop max [] (treeDoRange start end_ s.data) := rfl
  have hfil : sortedKV
      (s.data.filter (fun kv => keyLe start kv.Key && keyLt kv.Key end_)) :=
    List.Pairwise.sublist (List.filter_sublist _) hs
  have hmain : (scan s start end_ max).1
      = if max = 0
        then s.data.filter (fun kv => keyLe start kv.Key && keyLt kv.Key end_)
        else (s.data.filter
          (fun kv => keyLe start kv.Key && keyLt kv.Key end_)).take max.toNat := by
    rw [hkey, hdr]
    by_cases hm : max = 0
    · rw [if_pos hm, hm, scanLoop_zero]
      simp
    · rw [if_neg hm, scanLoop_ne_zero max hm _ []]
      by_cases hneg : ((([] : List KeyValue).length : Int) ≥ max)
      · rw [if_pos hneg]
        have hn : max.toNat = 0 := by
          simp at hneg
          omega
        rw [hn, List.take_zero]
      · rw [if_neg hneg]
        simp
  refine ⟨hmain, ?_, ?_⟩
  · rw [hmain]
    by_cases hm : max = 0
    · rw [if_pos hm]
      exact hfil
    · rw [if_neg hm]
      exact List.Pairwise.sublist (List.take_sublist _ _) hfil
  · intro hpos
    rw [hmain, if_neg (by omega : ¬ max = 0)]
    have h1 := List.length_take_le max.toNat
      (s.data.filter (fun kv => keyLe start kv.Key && keyLt kv.Key end_))
    have h2 : ((max.toNat : Nat) : Int) = max := Int.toNat_of_nonneg (by omega)
    omega

/-- C8 (witness): scanning a sorted three-entry store over the range
[[0], [2]) with max 1 yields exactly the first in-range entry, in sorted
order, of length at most 1. -/
theorem scan_characterization_witness :
    ((scan (InMem.mk 100 0 [⟨[0], ⟨[]⟩⟩, ⟨[1], ⟨[]⟩⟩, ⟨[2], ⟨[]⟩⟩]) [0] [2] 1).1
      = [⟨[0], ⟨[]⟩⟩])
    ∧ sortedKV (scan (InMem.mk 100 0 [⟨[0], ⟨[]⟩⟩, ⟨[1], ⟨[]⟩⟩, ⟨[2], ⟨[]⟩⟩])
        [0] [2] 1).1
    ∧ ((scan (InMem.mk 100 0 [⟨[0], ⟨[]⟩⟩, ⟨[1], ⟨[]⟩⟩, ⟨[2], ⟨[]⟩⟩])
        [0] [2] 1).1.length : Int) ≤ 1 := by
  have h := scan_characterization
    (InMem.mk 100 0 [⟨[0], ⟨[]⟩⟩, ⟨[1], ⟨[]⟩⟩, ⟨[2], ⟨[]⟩⟩]) [0] [2] 1
    (by unfold sortedKV; decide)
  exact ⟨h.1.trans (by decide), h.2.1, h.2.2 (by decide)⟩

/-- C9 (counterexample): the result get returns in the absence of an entry
is the zero Value, which is not distinguishable from a stored value: a store
holding the empty value under key [0] answers get exactly like the empty
store in which key [0] is absent. -/
theorem get_absent_indistinguishable :
    treeGet [0] (putLocked ⟨1, 1⟩ (NewInMem 100) [0] ⟨[]⟩).1.data
      = some { Key := [0], Value := ⟨[]⟩ }
    ∧ treeGet [0] (NewInMem 100).data = none
    ∧ get (putLocked ⟨1, 1⟩ (NewInMem 100) [0] ⟨[]⟩).1 [0] = get (NewInMem 100) [0] := by
  exact ⟨rfl, rfl, rfl⟩

/-- C9 (amended): get returns the stored value when an entry for the key
exists and the zero Value with a nil error when no entry exists; get never
returns an error; the absent result is the zero Value itself, so it is not
distinguishable from a stored empty value. -/
theorem get_value_or_zero (s : InMem) (key : Key) :
    (∀ kv, treeGet key s.data = some kv → get s key = (kv.Value, none))
    ∧ (treeGet key s.data = none → get s key = ({ Bytes := [] }, none))
    ∧ (get s key).2 = none := by
  refine ⟨?_, ?_, ?_⟩
  · intro kv h
    unfold get
    rw [h]
  · intro h
    unfold get
    rw [h]
  · unfold get
    cases treeGet key s.data <;> rfl

/-- C9 (witness): on a store holding [5] under key [0], get of [0] returns
that value with no error, and get of the absent key [1] returns the zero
Value with no error. -/
theorem get_value_or_zero_witness :
    (get (InMem.mk 100 3 [⟨[0], ⟨[5]⟩⟩]) [0] = (⟨[5]⟩, none))
    ∧ (get (InMem.mk 100 3 [⟨[0], ⟨[5]⟩⟩]) [1] = (⟨[]⟩, none))
    ∧ (get (InMem.mk 100 3 [⟨[0], ⟨[5]⟩⟩]) [0]).2 = none := by
  refine ⟨?_, ?_, ?_⟩
  · exact (get_value_or_zero (InMem.mk 100 3 [⟨[0], ⟨[5]⟩⟩]) [0]).1 ⟨[0], ⟨[5]⟩⟩ rfl
  · exact (get_value_or_zero (InMem.mk 100 3 [⟨[0], ⟨[5]⟩⟩]) [1]).2.1 rfl
  · exact (get_value_or_zero (InMem.mk 100 3 [⟨[0], ⟨[5]⟩⟩]) [0]).2.2

theorem delLocked_usedBytes_present (si : SizeInfo) (s : InMem) (key : Key)
    (kv : KeyValue) (h : treeGet key s.data = some kv) :
    (delLocked si s key).1.usedBytes = s.usedBytes - computeSize si kv := by
  unfold delLocked
  rw [h]

/-- C10: a put over an existing key adds the full marginal cost to usedBytes
without subtracting the replaced entry's cost, and a del subtracts the
stored entry's cost exactly once; consequently put(k,v); put(k,v); del(k) on
an empty store leaves no entries but a strictly positive usedBytes. -/
theorem put_del_accounting_leak (si : SizeInfo) :
    (∀ (s : InMem) (key : Key) (value : Value),
      (putLocked si s key value).2 = Except.ok () →
      (putLocked si s key value).1.usedBytes
        = s.usedBytes + computeSize si { Key := key, Value := value })
    ∧ (∀ (s : InMem) (key : Key) (kv : KeyValue),
      treeGet key s.data = some kv →
      (delLocked si s key).1.usedBytes = s.usedBytes - computeSize si kv)
    ∧ (∀ (key : Key) (value : Value) (maxB : Int),
      0 < si.llrbNodeSize + si.keyValueSize →
      2 * computeSize si { Key := key, Value := value } ≤ maxB →
      (delLocked si (putLocked si (putLocked si (NewInMem maxB) key value).1
          key value).1 key).1.data = []
      ∧ 0 < (delLocked si (putLocked si (putLocked si (NewInMem maxB) key value).1
          key value).1 key).1.usedBytes) := by
  refine ⟨?_, ?_, ?_⟩
  · intro s key value h
    by_cases hc : computeSize si { Key := key, Value := value } + s.usedBytes > s.maxBytes
    · rw [putLocked_over_capacity si s key value hc] at h
      exact absurd h (by simp)
    · rw [putLocked_within_capacity si s key value hc]
  · intro s key kv h
    exact delLocked_usedBytes_present si s key kv h
  · intro key value maxB hov hcap
    have hc0 : 0 < computeSize si { Key := key, Value := value } := by
      show (0 : Int) < (key.length : Int) + (value.Bytes.length : Int)
        + si.llrbNodeSize + si.keyValueSize
      have hk := Int.natCast_nonneg key.length
      have hv := Int.natCast_nonneg value.Bytes.length
      omega
    have h1 : ¬ computeSize si { Key := key, Value := value }
        + (NewInMem maxB).usedBytes > (NewInMem maxB).maxBytes := by
      show ¬ computeSize si { Key := key, Value := value } + (0 : Int) > maxB
      omega
    have hYdata : (putLocked si (NewInMem maxB) key value).1.data
        = [{ Key := key, Value := value }] := by
      rw [putLocked_within_capacity si (NewInMem maxB) key value h1]
      rfl
    have hYused : (putLocked si (NewInMem maxB) key value).1.usedBytes
        = 0 + computeSize si { Key := key, Value := value } := by
      rw [putLocked_within_capacity si (NewInMem maxB) key value h1]
      rfl
    have hYmax : (putLocked si (NewInMem maxB) key value).1.maxBytes = maxB := by
      rw [putLocked_within_capacity si (NewInMem maxB) key value h1]
      rfl
    have h2 : ¬ computeSize si { Key := key, Value := value }
        + (putLocked si (NewInMem maxB) key value).1.usedBytes
        > (putLocked si (NewInMem maxB) key value).1.maxBytes := by
      rw [hYused, hYmax]
      omega
    have hXdata : (putLocked si (putLocked si (NewInMem maxB) key value).1
        key value).1.data
        = treeInsert { Key := key, Value := value } [{ Key := key, Value := value }] := by
      rw [putLocked_within_capacity si _ key value h2]
      rw [show ({ (putLocked si (NewInMem maxB) key value).1 with
            usedBytes := (putLocked si (NewInMem maxB) key value).1.usedBytes
              + computeSize si ⟨key, value⟩,
            data := treeInsert ⟨key, value⟩
              (putLocked si (NewInMem maxB) key value).1.data } : InMem).data
          = treeInsert ⟨key, value⟩ (putLocked si (NewInMem maxB) key value).1.data
          from rfl]
      rw [hYdata]
    have hXused : (putLocked si (putLocked si (NewInMem maxB) key value).1
        key value).1.usedBytes
        = (0 + computeSize si { Key := key, Value := value })
          + computeSize si { Key := key, Value := value } := by
      rw [putLocked_within_capacity si _ key value h2]
      rw [show ({ (putLocked si (NewInMem maxB) key value).1 with
            usedBytes := (putLocked si (NewInMem maxB) key value).1.usedBytes
              + computeSize si ⟨key, value⟩,
            data := treeInsert ⟨key, value⟩
              (putLocked si (NewInMem maxB) key value).1.data } : InMem).usedBytes
          = (putLocked si (NewInMem maxB) key value).1.usedBytes
            + computeSize si ⟨key, value⟩ from rfl]
      rw [hYused]
    have hins : treeInsert { Key := key, Value := value }
        [{ Key := key, Value := value }] = [{ Key := key, Value := value }] := by
      unfold treeInsert
      simp [bytesCompare_self]
    have hpresent : treeGet key (putLocked si (putLocked si (NewInMem maxB) key value).1
        key value).1.data = some { Key := key, Value := value } := by
      rw [hXdata]
      exact treeGet_insert_self { Key := key, Value := value }
        [{ Key := key, Value := value }]
    constructor
    · rw [delLocked_data, hXdata, hins]
      unfold treeDelete
      simp [bytesCompare_self]
    · rw [delLocked_usedBytes_present si _ key { Key := key, Value := value } hpresent,
        hXused]
      omega

/-- C10 (witness): with unit overheads and budget 100, putting the empty
value under key [0] twice and deleting it leaves the store with no entries
but usedBytes 3. -/
theorem put_del_accounting_leak_witness :
    (delLocked ⟨1, 1⟩ (putLocked ⟨1, 1⟩ (putLocked ⟨1, 1⟩ (NewInMem 100) [0] ⟨[]⟩).1
        [0] ⟨[]⟩).1 [0]).1.data = []
    ∧ 0 < (delLocked ⟨1, 1⟩ (putLocked ⟨1, 1⟩ (putLocked ⟨1, 1⟩ (NewInMem 100) [0] ⟨[]⟩).1
        [0] ⟨[]⟩).1 [0]).1.usedBytes := by
  exact (put_del_accounting_leak ⟨1, 1⟩).2.2 [0] ⟨[]⟩ 100 (by decide) (by decide)

end Spec2Proof
